import Mathlib

/-!
Verification development for the variant consensus-picking and rule-based
filtering engine.

The CLI layer (mode names, argument tables, dispatch) is embedded from
`src/__main__.py`.  The `filtering` and `picking` engines imported there are
not part of the available sources, so they are modelled from the
specification; every such definition carries a doc comment saying so.
-/

namespace Variant

/-! ## CLI layer, embedded from `src/__main__.py` -/

/-- Mode name for the filtering subcommand, from `src/__main__.py`. -/
def FILTERING : String := "filtering"

/-- Mode name for the picking subcommand, from `src/__main__.py`. -/
def PICKING : String := "picking"

/-- Default value of an argparse argument: the Python dicts in
`src/__main__.py` use string defaults (e.g. `'None'`, `'./temp'`) and integer
defaults (the two caller-count thresholds default to `1`). -/
inductive ArgDefault where
  | str (s : String)
  | int (i : Int)
deriving DecidableEq, Repr

/-- One argparse argument declaration from `MODE_TO_GROUP_TO_ARGS` in
`src/__main__.py`: its option keys, whether it is required, and its declared
default value (if any). -/
structure ArgDef where
  keys : List String
  required : Bool
  defaultVal : Option ArgDefault
deriving DecidableEq, Repr

/-- The shared `-w`, `--workdir` argument, from `src/__main__.py`. -/
def WORKDIR_ARG : ArgDef := ⟨["-w", "--workdir"], false, some (.str "./temp")⟩

/-- The shared `-h`, `--help` argument, from `src/__main__.py`. -/
def HELP_ARG : ArgDef := ⟨["-h", "--help"], false, none⟩

/-- The shared `-v`, `--version` argument, from `src/__main__.py`. -/
def VERSION_ARG : ArgDef := ⟨["-v", "--version"], false, none⟩

/-- Required arguments of filtering mode, from `src/__main__.py`. -/
def filteringRequiredArgs : List ArgDef :=
  [⟨["-i", "--input-vcf"], true, none⟩,
   ⟨["-o", "--output-vcf"], true, none⟩]

/-- Optional arguments of filtering mode, from `src/__main__.py`; both rule
strings default to the literal string `"None"`. -/
def filteringOptionalArgs : List ArgDef :=
  [⟨["--variant-flagging-criteria"], false, some (.str "None")⟩,
   ⟨["--variant-removal-flags"], false, some (.str "None")⟩,
   WORKDIR_ARG, HELP_ARG, VERSION_ARG]

/-- Required arguments of picking mode, from `src/__main__.py`. -/
def pickingRequiredArgs : List ArgDef :=
  [⟨["-r", "--ref-fa"], true, none⟩,
   ⟨["-o", "--output-vcf"], true, none⟩]

/-- Optional arguments of picking mode, from `src/__main__.py`, in CLI
declaration order: the seven caller streams, then the two thresholds
(integers defaulting to 1), then the shared arguments. -/
def pickingOptionalArgs : List ArgDef :=
  [⟨["--mutect2"], false, some (.str "None")⟩,
   ⟨["--haplotype-caller"], false, some (.str "None")⟩,
   ⟨["--muse"], false, some (.str "None")⟩,
   ⟨["--varscan"], false, some (.str "None")⟩,
   ⟨["--lofreq"], false, some (.str "None")⟩,
   ⟨["--vardict"], false, some (.str "None")⟩,
   ⟨["--somatic-sniper"], false, some (.str "None")⟩,
   ⟨["--min-snv-callers"], false, some (.int 1)⟩,
   ⟨["--min-indel-callers"], false, some (.int 1)⟩,
   WORKDIR_ARG, HELP_ARG, VERSION_ARG]

/-- The full mode → group → argument table from `src/__main__.py`. -/
def MODE_TO_GROUP_TO_ARGS : List (String × List (String × List ArgDef)) :=
  [(FILTERING, [("Required", filteringRequiredArgs), ("Optional", filteringOptionalArgs)]),
   (PICKING, [("Required", pickingRequiredArgs), ("Optional", pickingOptionalArgs)])]

/-- The argparse result consumed by `EntryPoint.run` in `src/__main__.py`:
`mode` is `none` when no subcommand was selected, and the remaining fields
mirror the per-mode argument attributes. -/
structure ParsedArgs where
  mode : Option String
  input_vcf : String
  output_vcf : String
  variant_flagging_criteria : String
  variant_removal_flags : String
  ref_fa : String
  mutect2 : String
  haplotype_caller : String
  muse : String
  lofreq : String
  varscan : String
  vardict : String
  somatic_sniper : String
  min_snv_callers : Int
  min_indel_callers : Int
  workdir : String
deriving DecidableEq, Repr

/-- The observable effect of `EntryPoint.run` in `src/__main__.py`: print the
root help text, call `filtering(...)`, call `picking(...)` (arguments listed
in the order of the call site), or fall through doing nothing. -/
inductive RunAction where
  | printHelp
  | runFiltering (input_vcf output_vcf variant_flagging_criteria variant_removal_flags workdir : String)
  | runPicking (ref_fa output_vcf mutect2 haplotype_caller muse lofreq varscan vardict
      somatic_sniper : String) (min_snv_callers min_indel_callers : Int) (workdir : String)
  | fallThrough
deriving DecidableEq, Repr

/-- Dispatch logic of `EntryPoint.run` in `src/__main__.py`: if `args.mode`
is `None` print the root help; else if it equals `'filtering'` call the
filtering engine; else if it equals `'picking'` call the picking engine. -/
def EntryPoint.run (args : ParsedArgs) : RunAction :=
  match args.mode with
  | none => .printHelp
  | some m =>
    if m = FILTERING then
      .runFiltering args.input_vcf args.output_vcf args.variant_flagging_criteria
        args.variant_removal_flags args.workdir
    else if m = PICKING then
      .runPicking args.ref_fa args.output_vcf args.mutect2 args.haplotype_caller args.muse
        args.lofreq args.varscan args.vardict args.somatic_sniper args.min_snv_callers
        args.min_indel_callers args.workdir
    else .fallThrough

/-! ## Caller sources -/

/-- Modelled from the spec: the enumerated caller identities of §3
(the picking engine itself is not among the available sources).  The
constructors are listed in the CLI declaration order of
`MODE_TO_GROUP_TO_ARGS[PICKING]['Optional']` in `src/__main__.py`. -/
inductive CallerSource where
  | mutect2
  | haplotypeCaller
  | muse
  | varscan
  | lofreq
  | vardict
  | somaticSniper
deriving DecidableEq, Repr, Fintype

/-- Modelled from the spec: the fixed priority rank of a caller source
(§3, "rank equals CLI declaration order, mutect2 highest"); a smaller rank
means a higher priority. -/
def CallerSource.rank : CallerSource → Nat
  | .mutect2 => 0
  | .haplotypeCaller => 1
  | .muse => 2
  | .varscan => 3
  | .lofreq => 4
  | .vardict => 5
  | .somaticSniper => 6

/-- The CLI option key that introduces each caller stream in
`src/__main__.py`. -/
def CallerSource.cliKey : CallerSource → String
  | .mutect2 => "--mutect2"
  | .haplotypeCaller => "--haplotype-caller"
  | .muse => "--muse"
  | .varscan => "--varscan"
  | .lofreq => "--lofreq"
  | .vardict => "--vardict"
  | .somaticSniper => "--somatic-sniper"

/-- The CLI argument declaration of a caller stream in `src/__main__.py`:
optional, defaulting to the string `'None'`. -/
def callerArgDef (s : CallerSource) : ArgDef := ⟨[s.cliKey], false, some (.str "None")⟩

/-! ## Record model (modelled from the spec, §3 and §4.1) -/

/-- Modelled from the spec: a numeric INFO value or criterion literal,
kept as an unreduced fraction `num / den` (`den` is positive by
construction: parsed literals produce a power of ten).  Comparisons are by
cross-multiplication, so they agree with the rational value. -/
structure NumValue where
  num : Int
  den : Nat
deriving DecidableEq, Repr

/-- Value-level strict order on numeric values (cross-multiplication). -/
def NumValue.ltB (a b : NumValue) : Bool := decide (a.num * (b.den : Int) < b.num * (a.den : Int))

/-- Value-level non-strict order on numeric values (cross-multiplication). -/
def NumValue.leB (a b : NumValue) : Bool := decide (a.num * (b.den : Int) ≤ b.num * (a.den : Int))

/-- Value-level equality of numeric values (cross-multiplication). -/
def NumValue.eqB (a b : NumValue) : Bool := decide (a.num * (b.den : Int) = b.num * (a.den : Int))

/-- Modelled from the spec: an INFO field holds a numeric or string value
(§3, Record Model). -/
inductive InfoValue where
  | num (v : NumValue)
  | str (s : String)
deriving DecidableEq, Repr

/-- Modelled from the spec: one parsed variant call (§3, VariantRecord) —
contig, 1-based position, reference allele, alternate allele, INFO mapping,
existing filter flags, and the provenance tag of its source caller.  The
record-parsing code itself is not among the available sources. -/
structure VariantRecord where
  contig : String
  pos : Nat
  ref : String
  alt : String
  info : List (String × InfoValue)
  filterFlags : List String
  source : CallerSource
deriving DecidableEq, Repr

/-- First-match association lookup on an INFO mapping. -/
def lookupField : List (String × InfoValue) → String → Option InfoValue
  | [], _ => none
  | (k, v) :: rest, f => if k = f then some v else lookupField rest f

/-! ## Indel normalization (modelled from the spec, §3 CanonicalKey) -/

/-- Length of the longest common prefix of two character lists. -/
def commonPrefixLen : List Char → List Char → Nat
  | a :: as, b :: bs => if a = b then commonPrefixLen as bs + 1 else 0
  | _, _ => 0

/-- Modelled from the spec: strip the shared trailing bases, then the shared
leading bases, of a reference/alternate allele pair (§3, CanonicalKey); the
normalization code itself is not among the available sources.  Returns the
number of stripped leading bases (added to the position) and the two
stripped alleles. -/
def stripShared (ref alt : List Char) : Nat × List Char × List Char :=
  let k := commonPrefixLen ref.reverse alt.reverse
  let r1 := ref.take (ref.length - k)
  let a1 := alt.take (alt.length - k)
  let p := commonPrefixLen r1 a1
  (p, r1.drop p, a1.drop p)

/-- Modelled from the spec: the canonical identity of a variant after indel
normalization (§3, CanonicalKey). -/
structure CanonicalKey where
  contig : String
  pos : Nat
  ref : String
  alt : String
deriving DecidableEq, Repr

/-- Total normalization underlying `normalize`: strip the shared
leading/trailing bases and advance the position past the stripped leading
bases. -/
def canonicalKey (r : VariantRecord) : CanonicalKey :=
  let s := stripShared r.ref.data r.alt.data
  ⟨r.contig, r.pos + s.1, String.mk s.2.1, String.mk s.2.2⟩

/-- Modelled from the spec: normalization failure on empty alleles
(§4.1, `InvalidAllele`). -/
inductive NormalizeError where
  | invalidAllele
deriving DecidableEq, Repr

/-- Modelled from the spec: `normalize(record) -> CanonicalKey`, pure and
total for non-empty alleles, failing with `InvalidAllele` on empty alleles
(§4.1); the normalization code itself is not among the available sources. -/
def normalize (r : VariantRecord) : Except NormalizeError CanonicalKey :=
  if r.ref = "" ∨ r.alt = "" then .error .invalidAllele else .ok (canonicalKey r)

/-- The variant record whose alleles are exactly a canonical key's alleles
(used to state that normalization is idempotent). -/
def CanonicalKey.toRecord (k : CanonicalKey) : VariantRecord :=
  ⟨k.contig, k.pos, k.ref, k.alt, [], [], .mutect2⟩

/-- Modelled from the spec: the derived variant class (§3) — SNV for a
single-base substitution, otherwise Indel/Other (treated as Indel for
threshold purposes). -/
inductive VariantClass where
  | snv
  | indel
deriving DecidableEq, Repr

/-- Modelled from the spec: classify a canonical key — both normalized
alleles of length one means SNV, anything else is treated as Indel (§3,
VariantClass). -/
def VariantClass.ofKey (k : CanonicalKey) : VariantClass :=
  if k.ref.length = 1 ∧ k.alt.length = 1 then .snv else .indel

/-! ## Genomic ordering (modelled from the spec, §4.2) -/

/-- Strict lexicographic order on character lists (by code point). -/
def listLtB : List Char → List Char → Bool
  | [], [] => false
  | [], _ :: _ => true
  | _ :: _, [] => false
  | a :: as, b :: bs => if a = b then listLtB as bs else decide (a < b)

/-- Modelled from the spec: `rank(contig)` — the ordinal rank of a contig in
the reference sequence dictionary (§4.2); the index code itself is not among
the available sources.  A contig absent from the dictionary maps past the
end (such records are rejected up front as a configuration error). -/
def rankOf (ranks : List String) (contig : String) : Nat :=
  match ranks with
  | [] => 0
  | c :: rest => if c = contig then 0 else rankOf rest contig + 1

/-- Modelled from the spec: the total order over records (§4.2) — primary
key `rank(contig)`, secondary key position, tertiary key canonical
reference/alternate lexical order. -/
def keyLtB (ranks : List String) (a b : CanonicalKey) : Bool :=
  decide (rankOf ranks a.contig < rankOf ranks b.contig) ||
    (decide (rankOf ranks a.contig = rankOf ranks b.contig) &&
      (decide (a.pos < b.pos) ||
        (decide (a.pos = b.pos) &&
          (listLtB a.ref.data b.ref.data ||
            (decide (a.ref.data = b.ref.data) && listLtB a.alt.data b.alt.data)))))

/-- Propositional form of the genomic strict order. -/
def keyLt (ranks : List String) (a b : CanonicalKey) : Prop := keyLtB ranks a b = true

instance (ranks : List String) (a b : CanonicalKey) : Decidable (keyLt ranks a b) :=
  inferInstanceAs (Decidable (keyLtB ranks a b = true))

/-- Non-strict genomic order (strictly below, or the same key). -/
def keyLe (ranks : List String) (a b : CanonicalKey) : Prop := keyLt ranks a b ∨ a = b

instance (ranks : List String) (a b : CanonicalKey) : Decidable (keyLe ranks a b) :=
  inferInstanceAs (Decidable (keyLt ranks a b ∨ a = b))

/-! ## K-way merge engine (modelled from the spec, §4.3) -/

/-- Modelled from the spec: a consensus group (§3) — the canonical key and
all records across sources sharing it; the merge code itself is not among
the available sources. -/
structure ConsensusGroup where
  key : CanonicalKey
  records : List VariantRecord
deriving DecidableEq, Repr

/-- Modelled from the spec: the number of distinct supporting caller
sources of a group (§4.3: a second record from the same source does not
increase the count). -/
def supportCount (g : ConsensusGroup) : Nat := (g.records.map (·.source)).dedup.length

/-- Modelled from the spec: a group is kept iff its distinct supporting
source count reaches `min_snv_callers` (SNV) or `min_indel_callers`
(otherwise) (§4.3). -/
def keepGroup (minSnvCallers minIndelCallers : Int) (g : ConsensusGroup) : Bool :=
  match VariantClass.ofKey g.key with
  | .snv => decide (minSnvCallers ≤ (supportCount g : Int))
  | .indel => decide (minIndelCallers ≤ (supportCount g : Int))

/-- A record of minimal source rank in a list (the highest-priority one;
`none` only for the empty list). -/
def argminRank : List VariantRecord → Option VariantRecord
  | [] => none
  | r :: rest =>
    match argminRank rest with
    | none => some r
    | some b => if r.source.rank ≤ b.source.rank then some r else some b

/-- The records of a group that carry a given INFO field. -/
def carriers (g : ConsensusGroup) (field : String) : List VariantRecord :=
  g.records.filter (fun r => (lookupField r.info field).isSome)

/-- Modelled from the spec: the merged value of one INFO field — the value
from the highest-priority supporting source that carries the field (§3
ConsensusGroup, §4.3 tie-breaking). -/
def mergedValue (g : ConsensusGroup) (field : String) : Option InfoValue :=
  (argminRank (carriers g field)).bind (fun r => lookupField r.info field)

/-- All INFO field names occurring in a group, without duplicates. -/
def fieldNames (g : ConsensusGroup) : List String :=
  ((g.records.map (fun r => r.info.map Prod.fst)).flatten).dedup

/-- Modelled from the spec: the merged filter-flag set — the union of all
supporting sources' flags, regardless of priority (§3 ConsensusGroup). -/
def mergedFlags (g : ConsensusGroup) : List String :=
  ((g.records.map (·.filterFlags)).flatten).dedup

/-- Modelled from the spec: the single merged consensus record a kept group
emits (§4.3). -/
structure ConsensusVariant where
  key : CanonicalKey
  info : List (String × InfoValue)
  filterFlags : List String
deriving DecidableEq, Repr

/-- Modelled from the spec: build the merged consensus record of a group —
per-field INFO values resolved by caller priority, flags unioned (§3, §4.3). -/
def mergeGroup (g : ConsensusGroup) : ConsensusVariant :=
  ⟨g.key,
   (fieldNames g).filterMap (fun f => (mergedValue g f).map (fun v => (f, v))),
   mergedFlags g⟩

/-- The canonical keys at the current cursor of each non-exhausted stream. -/
def headKeys (streams : List (List VariantRecord)) : List CanonicalKey :=
  streams.filterMap (fun s => s.head?.map canonicalKey)

/-- Fold selecting a minimum key under the genomic order. -/
def minKeyAux (ranks : List String) (acc : CanonicalKey) : List CanonicalKey → CanonicalKey
  | [] => acc
  | k :: rest => minKeyAux ranks (if keyLt ranks k acc then k else acc) rest

/-- The globally minimum current key across all cursors (§4.3), or `none`
when every stream is exhausted. -/
def minKey (ranks : List String) : List CanonicalKey → Option CanonicalKey
  | [] => none
  | k :: rest => some (minKeyAux ranks k rest)

/-- Total number of records left across all streams (the merge's termination
measure). -/
def totalLen (streams : List (List VariantRecord)) : Nat := (streams.map List.length).sum

/-- Does a record normalize to the given canonical key? -/
def isKeyRec (m : CanonicalKey) (r : VariantRecord) : Bool := decide (canonicalKey r = m)

/-- Modelled from the spec: the cursor-based k-way merge (§4.3) — repeatedly
select the globally minimum current key, collect from the front of every
stream all records sharing it (advancing only those cursors), close the
group, and continue.  The merge code itself is not among the available
sources.  Each round consumes at least one record, so fuel `totalLen`
(used by `mergeGroups`) never runs out — see `mergeGroupsFuel_stable`. -/
def mergeGroupsFuel (ranks : List String) : Nat → List (List VariantRecord) → List ConsensusGroup
  | 0, _ => []
  | fuel + 1, streams =>
    match minKey ranks (headKeys streams) with
    | none => []
    | some m =>
      let grp := (streams.map (fun s => s.takeWhile (isKeyRec m))).flatten
      let rest := streams.map (fun s => s.dropWhile (isKeyRec m))
      ⟨m, grp⟩ :: mergeGroupsFuel ranks fuel rest

/-- The sequence of consensus groups formed by the k-way merge, in the order
they are closed. -/
def mergeGroups (ranks : List String) (streams : List (List VariantRecord)) :
    List ConsensusGroup :=
  mergeGroupsFuel ranks (totalLen streams) streams

/-- The groups the merge keeps under the two thresholds (§4.3). -/
def keptGroups (ranks : List String) (streams : List (List VariantRecord))
    (minSnvCallers minIndelCallers : Int) : List ConsensusGroup :=
  (mergeGroups ranks streams).filter (keepGroup minSnvCallers minIndelCallers)

/-- Modelled from the spec: the picking error taxonomy (§7) —
`ConfigurationError` (unknown contig, threshold below one),
`OrderingViolation` (an unsorted input stream), and the record-level
`InvalidAllele` parse failure. -/
inductive PickError where
  | configurationError
  | orderingViolation
  | invalidAllele
deriving DecidableEq, Repr

/-- Is one input stream sorted (non-strictly) by the genomic order of its
records' canonical keys? -/
def streamSorted (ranks : List String) : List VariantRecord → Bool
  | [] => true
  | [_] => true
  | a :: b :: rest =>
    decide (keyLe ranks (canonicalKey a) (canonicalKey b)) && streamSorted ranks (b :: rest)

/-- Does every record of every stream reference a contig of the reference
dictionary? -/
def contigsKnown (ranks : List String) (streams : List (List VariantRecord)) : Bool :=
  streams.all (fun s => s.all (fun r => decide (r.contig ∈ ranks)))

/-- Does every record of every stream have non-empty alleles? -/
def allelesNonEmpty (streams : List (List VariantRecord)) : Bool :=
  streams.all (fun s => s.all (fun r => !decide (r.ref = "") && !decide (r.alt = "")))

/-- Modelled from the spec: the picking pipeline (§4.3, §7) — fatal
configuration errors (threshold below one, unknown contig) abort before any
output, as do an invalid allele and an unsorted stream; otherwise the k-way
merge runs, kept groups emit one merged record each, in ascending order.
The picking code itself is not among the available sources. -/
def picking (ranks : List String) (streams : List (List VariantRecord))
    (minSnvCallers minIndelCallers : Int) : Except PickError (List ConsensusVariant) :=
  if minSnvCallers < 1 ∨ minIndelCallers < 1 then .error .configurationError
  else if !contigsKnown ranks streams then .error .configurationError
  else if !allelesNonEmpty streams then .error .invalidAllele
  else if !(streams.all (streamSorted ranks)) then .error .orderingViolation
  else .ok ((keptGroups ranks streams minSnvCallers minIndelCallers).map mergeGroup)

/-! ## Criteria rule engine (modelled from the spec, §4.4) -/

/-- Modelled from the spec: the comparison operators of the flagging
mini-language, `OP ∈ {<, <=, >, >=, ==, !=}` (§4.4). -/
inductive CmpOp where
  | lt
  | le
  | gt
  | ge
  | eq
  | ne
deriving DecidableEq, Repr

/-- Evaluate a comparison operator on numeric values. -/
def CmpOp.eval : CmpOp → NumValue → NumValue → Bool
  | .lt, a, b => a.ltB b
  | .le, a, b => a.leB b
  | .gt, a, b => b.ltB a
  | .ge, a, b => b.leB a
  | .eq, a, b => a.eqB b
  | .ne, a, b => !(a.eqB b)

/-- Modelled from the spec: a named flagging criterion (§3, §4.4) — a single
comparison `field OP value` or a range `low OP field OP high`. -/
inductive Criterion where
  | cmp (name field : String) (op : CmpOp) (value : NumValue)
  | range (name : String) (low : NumValue) (lowOp : CmpOp) (field : String)
      (highOp : CmpOp) (high : NumValue)
deriving DecidableEq, Repr

/-- The flag name a criterion contributes. -/
def Criterion.name : Criterion → String
  | .cmp n .. => n
  | .range n .. => n

/-- The INFO field a criterion reads. -/
def Criterion.field : Criterion → String
  | .cmp _ f .. => f
  | .range _ _ _ f .. => f

/-- Modelled from the spec: criterion evaluation on one record (§4.4) — a
referenced field absent from the record's INFO mapping makes the criterion
vacuously false (not an error), and a non-numeric value cannot satisfy a
numeric comparison. -/
def Criterion.satisfied (c : Criterion) (r : VariantRecord) : Bool :=
  match c with
  | .cmp _ f op v =>
    match lookupField r.info f with
    | some (.num x) => op.eval x v
    | some (.str _) => false
    | none => false
  | .range _ lo lop f hop hi =>
    match lookupField r.info f with
    | some (.num x) => lop.eval lo x && hop.eval x hi
    | some (.str _) => false
    | none => false

/-- Add a flag name to an ordered flag set, as a no-op when already
present (§4.4: deduplicated). -/
def addFlag (flags : List String) (f : String) : List String :=
  if f ∈ flags then flags else flags ++ [f]

/-- One flagging step: append the criterion's name when its predicate is
satisfied by the record. -/
def flagStep (r : VariantRecord) (flags : List String) (c : Criterion) : List String :=
  if c.satisfied r then addFlag flags c.name else flags

/-- Modelled from the spec: evaluation of all criteria on one record
(§4.4) — for every satisfied criterion append its name to the record's
filter-flag set, deduplicated.  The flagging code itself is not among the
available sources. -/
def applyCriteria (cs : List Criterion) (r : VariantRecord) : VariantRecord :=
  { r with filterFlags := cs.foldl (flagStep r) r.filterFlags }

/-- Insert a flag into an ascending list of flags (by lexical order). -/
def insertSorted (x : String) : List String → List String
  | [] => [x]
  | y :: rest => if listLtB y.data x.data then y :: insertSorted x rest else x :: y :: rest

/-- Sort a flag set into ascending lexical order. -/
def sortFlags (flags : List String) : List String := flags.foldr insertSorted []

/-- Join flag names with semicolons. -/
def joinSemicolon : List String → List Char
  | [] => []
  | [f] => f.data
  | f :: rest => f.data ++ ';' :: joinSemicolon rest

/-- Modelled from the spec: the explicit no-flags marker used when a record
has an empty filter-flag set (§4.4); the standard variant-call text format
writes it as `PASS`. -/
def noFlagsMarker : String := "PASS"

/-- Modelled from the spec: serialize a filter-flag set as a
semicolon-joined, sorted list of flag names, or the no-flags marker when
empty (§4.4). -/
def serializeFlags (flags : List String) : String :=
  match sortFlags flags with
  | [] => noFlagsMarker
  | fs => String.mk (joinSemicolon fs)

/-- The terminal state of one record in the filtering pipeline (§4.4):
dropped, or emitted with its serialized FILTER value. -/
inductive FilterOutcome where
  | dropped
  | emitted (filterField : String)
deriving DecidableEq, Repr

/-- Modelled from the spec: flag one record, then evaluate removal (§4.4) —
if the resulting flag set intersects the removal set the record is dropped;
otherwise it is emitted with its serialized flag set.  The filtering code
itself is not among the available sources. -/
def evaluateRecord (cs : List Criterion) (removal : List String) (r : VariantRecord) :
    FilterOutcome :=
  let r' := applyCriteria cs r
  if r'.filterFlags.any (fun f => decide (f ∈ removal)) then .dropped
  else .emitted (serializeFlags r'.filterFlags)

/-! ## Parsing the two rule mini-languages (modelled from the spec, §4.4) -/

/-- Split a character list on a separator character. -/
def splitOnSep (sep : Char) : List Char → List (List Char)
  | [] => [[]]
  | c :: rest =>
    if c = sep then [] :: splitOnSep sep rest
    else
      match splitOnSep sep rest with
      | [] => [[c]]
      | g :: gs => (c :: g) :: gs

/-- Strip leading and trailing whitespace from a character list. -/
def trimChars (s : List Char) : List Char :=
  ((s.dropWhile Char.isWhitespace).reverse.dropWhile Char.isWhitespace).reverse

/-- Numeric value of a list of decimal digits. -/
def digitsToNat (s : List Char) : Nat := s.foldl (fun n c => 10 * n + (c.toNat - 48)) 0

/-- Parse a non-empty all-digit character list. -/
def parseNatChars (s : List Char) : Option Nat :=
  if s ≠ [] ∧ s.all Char.isDigit then some (digitsToNat s) else none

/-- Modelled from the spec: parse a numeric literal (§4.4) — an optional
sign, an integer part, and an optional decimal part. -/
def parseNumValue (s0 : List Char) : Option NumValue :=
  let signSplit : Bool × List Char :=
    match s0 with
    | '-' :: rest => (true, rest)
    | _ => (false, s0)
  let neg := signSplit.1
  match splitOnSep '.' signSplit.2 with
  | [ip] =>
    (parseNatChars ip).map (fun n => ⟨if neg then -(n : Int) else (n : Int), 1⟩)
  | [ip, fp] =>
    match parseNatChars ip, parseNatChars fp with
    | some i, some f =>
      let den : Nat := 10 ^ fp.length
      let n : Int := (i : Int) * (den : Int) + (f : Int)
      some ⟨if neg then -n else n, den⟩
    | _, _ => none
  | _ => none

/-- Find the first comparison-operator occurrence in a character list,
longest match first; returns the reversed-accumulated left part, the
operator, and the right part. -/
def findOpAux (acc : List Char) : List Char → Option (List Char × CmpOp × List Char)
  | [] => none
  | '<' :: '=' :: rest => some (acc.reverse, CmpOp.le, rest)
  | '>' :: '=' :: rest => some (acc.reverse, CmpOp.ge, rest)
  | '=' :: '=' :: rest => some (acc.reverse, CmpOp.eq, rest)
  | '!' :: '=' :: rest => some (acc.reverse, CmpOp.ne, rest)
  | '<' :: rest => some (acc.reverse, CmpOp.lt, rest)
  | '>' :: rest => some (acc.reverse, CmpOp.gt, rest)
  | c :: rest => findOpAux (c :: acc) rest

/-- Modelled from the spec: parse one criterion expression (§4.4) — either
`field OP value` or `low OP field OP high`. -/
def parseExpr (name : String) (body : List Char) : Option Criterion :=
  match findOpAux [] body with
  | none => none
  | some (lhs, op1, rest1) =>
    match findOpAux [] rest1 with
    | none =>
      match parseNumValue (trimChars rest1) with
      | some v => some (Criterion.cmp name (String.mk (trimChars lhs)) op1 v)
      | none => none
    | some (mid, op2, rhs) =>
      match parseNumValue (trimChars lhs), parseNumValue (trimChars rhs) with
      | some lo, some hi =>
        some (Criterion.range name lo op1 (String.mk (trimChars mid)) op2 hi)
      | _, _ => none

/-- Modelled from the spec: parse one `name: expression` entry (§4.4). -/
def parseEntry (entry : List Char) : Option Criterion :=
  match splitOnSep ':' entry with
  | [n, body] => parseExpr (String.mk (trimChars n)) body
  | _ => none

/-- Parse a list of entries, failing with the offending entry's text. -/
def parseEntries : List (List Char) → Except String (List Criterion)
  | [] => .ok []
  | e :: rest =>
    match parseEntry e with
    | some c =>
      match parseEntries rest with
      | .ok cs => .ok (c :: cs)
      | .error msg => .error msg
    | none => .error (String.mk e)

/-- Modelled from the spec: parse the comma-separated flagging-criteria
string (§4.4); the literal sentinel `"None"` (case-sensitive) parses to the
empty criterion list rather than an error, and a malformed entry fails
naming the offending entry.  The parsing code itself is not among the
available sources. -/
def parseCriteria (s : String) : Except String (List Criterion) :=
  if s = "None" then .ok [] else parseEntries (splitOnSep ',' s.data)

/-- Modelled from the spec: parse the comma-separated removal-flag names
(§4.4); the sentinel `"None"` parses to the empty set. -/
def parseRemovalFlags (s : String) : List String :=
  if s = "None" then [] else (splitOnSep ',' s.data).map (fun g => String.mk (trimChars g))

/-- Modelled from the spec: the filtering pipeline on a stream of parsed
records (§4.4) — parse both rule strings once, then map every record to its
terminal outcome.  The filtering code itself is not among the available
sources. -/
def filteringRun (criteriaStr removalStr : String) (records : List VariantRecord) :
    Except String (List FilterOutcome) :=
  match parseCriteria criteriaStr with
  | .error e => .error e
  | .ok cs => .ok (records.map (evaluateRecord cs (parseRemovalFlags removalStr)))

instance {ε α : Type} [DecidableEq ε] [DecidableEq α] : DecidableEq (Except ε α) := fun a b =>
  match a, b with
  | .error e, .error f =>
    if h : e = f then isTrue (by rw [h]) else isFalse (by simp [h])
  | .error _, .ok _ => isFalse (by simp)
  | .ok _, .error _ => isFalse (by simp)
  | .ok x, .ok y =>
    if h : x = y then isTrue (by rw [h]) else isFalse (by simp [h])

/-! ## Concrete example data (used by boundary cases and witnesses) -/

/-- The `chr1:100 A>G` call as reported by mutect2 (spec §8's boundary
example), carrying a depth INFO field. -/
def recMutect2AG : VariantRecord :=
  ⟨"chr1", 100, "A", "G", [("DP", .num ⟨30, 1⟩)], [], .mutect2⟩

/-- The same `chr1:100 A>G` call as reported by vardict, with a conflicting
depth value. -/
def recVardictAG : VariantRecord :=
  ⟨"chr1", 100, "A", "G", [("DP", .num ⟨99, 1⟩)], [], .vardict⟩

/-- A second mutect2 call further down chr1. -/
def recMutect2At200 : VariantRecord :=
  ⟨"chr1", 200, "A", "G", [], [], .mutect2⟩

/-- The consensus group formed at `chr1:100 A>G` by mutect2 and vardict. -/
def groupAG : ConsensusGroup :=
  ⟨⟨"chr1", 100, "A", "G"⟩, [recMutect2AG, recVardictAG]⟩

/-- The merged consensus record of `groupAG`: the conflicting `DP` resolves
to mutect2's value. -/
def consensusAG : ConsensusVariant :=
  ⟨⟨"chr1", 100, "A", "G"⟩, [("DP", .num ⟨30, 1⟩)], []⟩

/-- The consensus record at `chr1:200 A>G` (single caller). -/
def consensusAt200 : ConsensusVariant :=
  ⟨⟨"chr1", 200, "A", "G"⟩, [], []⟩

/-- A low-depth flagging criterion, `low_depth: DP<20`. -/
def lowDepthCriterion : Criterion := .cmp "low_depth" "DP" .lt ⟨20, 1⟩

/-- A record with depth 10, satisfying `lowDepthCriterion`. -/
def recDP10 : VariantRecord :=
  ⟨"chr1", 100, "A", "G", [("DP", .num ⟨10, 1⟩)], [], .mutect2⟩

/-- Parsed arguments with no subcommand selected. -/
def argsNoMode : ParsedArgs :=
  ⟨none, "", "", "None", "None", "", "None", "None", "None", "None", "None", "None", "None",
   1, 1, "./temp"⟩

/-! ## Lemmas about the genomic order -/

theorem listLtB_irrefl : ∀ l : List Char, listLtB l l = false := by
  intro l
  induction l with
  | nil => rfl
  | cons a as ih => simp [listLtB, ih]

theorem listLtB_trans : ∀ x y z : List Char,
    listLtB x y = true → listLtB y z = true → listLtB x z = true := by
  intro x
  induction x with
  | nil =>
    intro y z hxy hyz
    cases y <;> cases z <;> simp_all [listLtB]
  | cons a as ih =>
    intro y z hxy hyz
    cases y with
    | nil => simp [listLtB] at hxy
    | cons b bs =>
      cases z with
      | nil => simp [listLtB] at hyz
      | cons c cs =>
        simp only [listLtB] at hxy hyz ⊢
        by_cases hab : a = b
        · subst hab
          by_cases hbc : a = c
          · subst hbc
            rw [if_pos rfl] at hxy hyz ⊢
            exact ih _ _ hxy hyz
          · rw [if_pos rfl] at hxy
            rw [if_neg hbc] at hyz ⊢
            exact hyz
        · by_cases hbc : b = c
          · subst hbc
            rw [if_neg hab] at hxy ⊢
            exact hxy
          · rw [if_neg hab] at hxy
            rw [if_neg hbc] at hyz
            have h1 : a < b := of_decide_eq_true hxy
            have h2 : b < c := of_decide_eq_true hyz
            have h3 : a < c := lt_trans h1 h2
            rw [if_neg (ne_of_lt h3)]
            exact decide_eq_true h3

theorem listLtB_eq_of_not_lt : ∀ x y : List Char,
    listLtB x y = false → listLtB y x = false → x = y := by
  intro x
  induction x with
  | nil =>
    intro y hxy _
    cases y with
    | nil => rfl
    | cons b bs => simp [listLtB] at hxy
  | cons a as ih =>
    intro y hxy hyx
    cases y with
    | nil => simp [listLtB] at hyx
    | cons b bs =>
      simp only [listLtB] at hxy hyx
      by_cases hab : a = b
      · subst hab
        rw [if_pos rfl] at hxy hyx
        rw [ih bs hxy hyx]
      · rw [if_neg hab] at hxy
        rw [if_neg (fun h => hab h.symm)] at hyx
        have h1 : ¬ a < b := of_decide_eq_false hxy
        have h2 : ¬ b < a := of_decide_eq_false hyx
        exact absurd (le_antisymm (not_lt.mp h2) (not_lt.mp h1)) hab

theorem rankOf_inj : ∀ (ranks : List String) (c d : String), c ∈ ranks → d ∈ ranks →
    rankOf ranks c = rankOf ranks d → c = d := by
  intro ranks
  induction ranks with
  | nil =>
    intro c d hc _ _
    simp at hc
  | cons rh rt ih =>
    intro c d hc hd h
    by_cases hrc : rh = c <;> by_cases hrd : rh = d
    · rw [← hrc, ← hrd]
    · simp only [rankOf, if_pos hrc, if_neg hrd] at h
      omega
    · simp only [rankOf, if_neg hrc, if_pos hrd] at h
      omega
    · simp only [rankOf, if_neg hrc, if_neg hrd] at h
      have hc' : c ∈ rt := by
        rcases List.mem_cons.mp hc with h' | h'
        · exact absurd h'.symm hrc
        · exact h'
      have hd' : d ∈ rt := by
        rcases List.mem_cons.mp hd with h' | h'
        · exact absurd h'.symm hrd
        · exact h'
      exact ih c d hc' hd' (by omega)

theorem keyLt_iff (ranks : List String) (a b : CanonicalKey) :
    keyLt ranks a b ↔
      rankOf ranks a.contig < rankOf ranks b.contig ∨
        (rankOf ranks a.contig = rankOf ranks b.contig ∧
          (a.pos < b.pos ∨
            (a.pos = b.pos ∧
              (listLtB a.ref.data b.ref.data = true ∨
                (a.ref.data = b.ref.data ∧ listLtB a.alt.data b.alt.data = true))))) := by
  simp [keyLt, keyLtB, Bool.or_eq_true, Bool.and_eq_true, decide_eq_true_eq]

theorem keyLt_irrefl (ranks : List String) (a : CanonicalKey) : ¬ keyLt ranks a a := by
  rw [keyLt_iff]
  simp [listLtB_irrefl]

theorem keyLt_trans {ranks : List String} {a b c : CanonicalKey} :
    keyLt ranks a b → keyLt ranks b c → keyLt ranks a c := by
  rw [keyLt_iff, keyLt_iff, keyLt_iff]
  rintro (h1 | ⟨e1, h1⟩) (h2 | ⟨e2, h2⟩)
  · exact Or.inl (lt_trans h1 h2)
  · exact Or.inl (by rw [← e2]; exact h1)
  · exact Or.inl (by rw [e1]; exact h2)
  · refine Or.inr ⟨e1.trans e2, ?_⟩
    rcases h1 with h1 | ⟨p1, h1⟩ <;> rcases h2 with h2 | ⟨p2, h2⟩
    · exact Or.inl (lt_trans h1 h2)
    · exact Or.inl (by rw [← p2]; exact h1)
    · exact Or.inl (by rw [p1]; exact h2)
    · refine Or.inr ⟨p1.trans p2, ?_⟩
      rcases h1 with h1 | ⟨r1, h1⟩ <;> rcases h2 with h2 | ⟨r2, h2⟩
      · exact Or.inl (listLtB_trans _ _ _ h1 h2)
      · exact Or.inl (by rw [← r2]; exact h1)
      · exact Or.inl (by rw [r1]; exact h2)
      · exact Or.inr ⟨r1.trans r2, listLtB_trans _ _ _ h1 h2⟩

theorem keyLt_asymm {ranks : List String} {a b : CanonicalKey} :
    keyLt ranks a b → ¬ keyLt ranks b a :=
  fun h h' => keyLt_irrefl ranks a (keyLt_trans h h')

theorem keyLt_or_eq_or_gt (ranks : List String) (a b : CanonicalKey)
    (ha : a.contig ∈ ranks) (hb : b.contig ∈ ranks) :
    keyLt ranks a b ∨ a = b ∨ keyLt ranks b a := by
  rw [keyLt_iff, keyLt_iff]
  rcases Nat.lt_trichotomy (rankOf ranks a.contig) (rankOf ranks b.contig) with h | h | h
  · exact Or.inl (Or.inl h)
  · have hcontig : a.contig = b.contig := rankOf_inj ranks _ _ ha hb h
    rcases Nat.lt_trichotomy a.pos b.pos with hp | hp | hp
    · exact Or.inl (Or.inr ⟨h, Or.inl hp⟩)
    · cases href : listLtB a.ref.data b.ref.data with
      | true => exact Or.inl (Or.inr ⟨h, Or.inr ⟨hp, Or.inl rfl⟩⟩)
      | false =>
        cases href' : listLtB b.ref.data a.ref.data with
        | true =>
          exact Or.inr (Or.inr (Or.inr ⟨h.symm, Or.inr ⟨hp.symm, Or.inl rfl⟩⟩))
        | false =>
          have hr : a.ref.data = b.ref.data := listLtB_eq_of_not_lt _ _ href href'
          cases halt : listLtB a.alt.data b.alt.data with
          | true => exact Or.inl (Or.inr ⟨h, Or.inr ⟨hp, Or.inr ⟨hr, rfl⟩⟩⟩)
          | false =>
            cases halt' : listLtB b.alt.data a.alt.data with
            | true =>
              exact Or.inr (Or.inr (Or.inr ⟨h.symm, Or.inr ⟨hp.symm,
                Or.inr ⟨hr.symm, rfl⟩⟩⟩))
            | false =>
              have hal : a.alt.data = b.alt.data := listLtB_eq_of_not_lt _ _ halt halt'
              have hrS : a.ref = b.ref := congrArg String.mk hr
              have haS : a.alt = b.alt := congrArg String.mk hal
              refine Or.inr (Or.inl ?_)
              cases a
              cases b
              simp_all
    · exact Or.inr (Or.inr (Or.inr ⟨h.symm, Or.inl hp⟩))
  · exact Or.inr (Or.inr (Or.inl h))

theorem keyLe_refl (ranks : List String) (a : CanonicalKey) : keyLe ranks a a := Or.inr rfl

theorem keyLe_trans {ranks : List String} {a b c : CanonicalKey} :
    keyLe ranks a b → keyLe ranks b c → keyLe ranks a c := by
  rintro (h1 | rfl) (h2 | rfl)
  · exact Or.inl (keyLt_trans h1 h2)
  · exact Or.inl h1
  · exact Or.inl h2
  · exact Or.inr rfl

theorem keyLt_of_keyLt_of_keyLe {ranks : List String} {a b c : CanonicalKey} :
    keyLt ranks a b → keyLe ranks b c → keyLt ranks a c := by
  rintro h1 (h2 | rfl)
  · exact keyLt_trans h1 h2
  · exact h1

theorem keyLt_of_keyLe_of_keyLt {ranks : List String} {a b c : CanonicalKey} :
    keyLe ranks a b → keyLt ranks b c → keyLt ranks a c := by
  rintro (h1 | rfl) h2
  · exact keyLt_trans h1 h2
  · exact h2

/-! ## Lemmas about minimum-key selection -/

theorem minKeyAux_mem (ranks : List String) : ∀ (l : List CanonicalKey) (acc : CanonicalKey),
    minKeyAux ranks acc l = acc ∨ minKeyAux ranks acc l ∈ l := by
  intro l
  induction l with
  | nil => intro acc; exact Or.inl rfl
  | cons k rest ih =>
    intro acc
    rw [minKeyAux]
    by_cases h : keyLt ranks k acc
    · rw [if_pos h]
      rcases ih k with h' | h'
      · exact Or.inr (by rw [h']; exact List.mem_cons_self k rest)
      · exact Or.inr (List.mem_cons_of_mem k h')
    · rw [if_neg h]
      rcases ih acc with h' | h'
      · exact Or.inl h'
      · exact Or.inr (List.mem_cons_of_mem k h')

theorem minKeyAux_le (ranks : List String) : ∀ (l : List CanonicalKey) (acc : CanonicalKey),
    acc.contig ∈ ranks → (∀ k ∈ l, k.contig ∈ ranks) →
    keyLe ranks (minKeyAux ranks acc l) acc ∧
      ∀ k ∈ l, keyLe ranks (minKeyAux ranks acc l) k := by
  intro l
  induction l with
  | nil =>
    intro acc _ _
    exact ⟨keyLe_refl ranks acc, by intro k hk; simp at hk⟩
  | cons k rest ih =>
    intro acc hacc hl
    have hk : k.contig ∈ ranks := hl k (List.mem_cons_self k rest)
    have hrest : ∀ x ∈ rest, x.contig ∈ ranks :=
      fun x hx => hl x (List.mem_cons_of_mem k hx)
    rw [minKeyAux]
    by_cases h : keyLt ranks k acc
    · rw [if_pos h]
      obtain ⟨hle_acc', hle_rest⟩ := ih k hk hrest
      have hle_acc : keyLe ranks (minKeyAux ranks k rest) acc :=
        keyLe_trans hle_acc' (Or.inl h)
      refine ⟨hle_acc, ?_⟩
      intro x hx
      rcases List.mem_cons.mp hx with rfl | hx'
      · exact hle_acc'
      · exact hle_rest x hx'
    · rw [if_neg h]
      obtain ⟨hle_acc, hle_rest⟩ := ih acc hacc hrest
      refine ⟨hle_acc, ?_⟩
      intro x hx
      rcases List.mem_cons.mp hx with rfl | hx'
      · rcases keyLt_or_eq_or_gt ranks x acc hk hacc with h' | h' | h'
        · exact absurd h' h
        · exact h' ▸ hle_acc
        · exact keyLe_trans hle_acc (Or.inl h')
      · exact hle_rest x hx'

theorem minKey_mem {ranks : List String} {ks : List CanonicalKey} {m : CanonicalKey}
    (h : minKey ranks ks = some m) : m ∈ ks := by
  cases ks with
  | nil => simp [minKey] at h
  | cons k rest =>
    rw [minKey] at h
    injection h with h
    rcases minKeyAux_mem ranks rest k with h' | h'
    · rw [← h, h']
      exact List.mem_cons_self k rest
    · rw [← h]
      exact List.mem_cons_of_mem k h'

theorem minKey_le {ranks : List String} {ks : List CanonicalKey} {m : CanonicalKey}
    (h : minKey ranks ks = some m) (hranks : ∀ k ∈ ks, k.contig ∈ ranks) :
    ∀ k ∈ ks, keyLe ranks m k := by
  cases ks with
  | nil => simp [minKey] at h
  | cons k rest =>
    rw [minKey] at h
    injection h with h
    have hk : k.contig ∈ ranks := hranks k (List.mem_cons_self k rest)
    have hrest : ∀ x ∈ rest, x.contig ∈ ranks :=
      fun x hx => hranks x (List.mem_cons_of_mem k hx)
    obtain ⟨hle_acc, hle_rest⟩ := minKeyAux_le ranks rest k hk hrest
    intro x hx
    rcases List.mem_cons.mp hx with rfl | hx'
    · exact h ▸ hle_acc
    · exact h ▸ hle_rest x hx'

/-! ## Lemmas about the k-way merge -/

theorem canonicalKey_contig (r : VariantRecord) : (canonicalKey r).contig = r.contig := rfl

theorem mem_headKeys {streams : List (List VariantRecord)} {m : CanonicalKey}
    (h : m ∈ headKeys streams) :
    ∃ s ∈ streams, ∃ h0 t, s = h0 :: t ∧ canonicalKey h0 = m := by
  rw [headKeys, List.mem_filterMap] at h
  obtain ⟨s, hs, hmap⟩ := h
  cases s with
  | nil => simp at hmap
  | cons h0 t =>
    refine ⟨h0 :: t, hs, h0, t, rfl, ?_⟩
    simpa using hmap

theorem headKeys_contig {ranks : List String} {streams : List (List VariantRecord)}
    (hc : ∀ s ∈ streams, ∀ r ∈ s, r.contig ∈ ranks) :
    ∀ k ∈ headKeys streams, k.contig ∈ ranks := by
  intro k hk
  obtain ⟨s, hs, h0, t, rfl, hkey⟩ := mem_headKeys hk
  rw [← hkey, canonicalKey_contig]
  exact hc _ hs h0 (List.mem_cons_self h0 t)

theorem head_mem_headKeys {streams : List (List VariantRecord)} {s : List VariantRecord}
    {h0 : VariantRecord} {t : List VariantRecord}
    (hs : s ∈ streams) (hst : s = h0 :: t) : canonicalKey h0 ∈ headKeys streams := by
  rw [headKeys, List.mem_filterMap]
  exact ⟨s, hs, by rw [hst]; rfl⟩

theorem all_keyLe_of_sorted {ranks : List String} {m : CanonicalKey}
    {s : List VariantRecord}
    (hsort : s.Pairwise (fun u v => keyLe ranks (canonicalKey u) (canonicalKey v)))
    (hhead : ∀ h0 t, s = h0 :: t → keyLe ranks m (canonicalKey h0)) :
    ∀ r ∈ s, keyLe ranks m (canonicalKey r) := by
  cases s with
  | nil =>
    intro r hr
    simp at hr
  | cons h0 t =>
    intro r hr
    have hm : keyLe ranks m (canonicalKey h0) := hhead h0 t rfl
    rcases List.mem_cons.mp hr with rfl | hr'
    · exact hm
    · exact keyLe_trans hm ((List.pairwise_cons.mp hsort).1 r hr')

theorem dropWhile_keyGt {ranks : List String} (m : CanonicalKey) :
    ∀ s : List VariantRecord,
      s.Pairwise (fun u v => keyLe ranks (canonicalKey u) (canonicalKey v)) →
      (∀ r ∈ s, keyLe ranks m (canonicalKey r)) →
      ∀ r ∈ s.dropWhile (isKeyRec m), keyLt ranks m (canonicalKey r) := by
  intro s
  induction s with
  | nil =>
    intro _ _ r hr
    simp at hr
  | cons h0 t ih =>
    intro hsort hall
    obtain ⟨hh, ht⟩ := List.pairwise_cons.mp hsort
    cases hk : isKeyRec m h0 with
    | true =>
      have heq : (h0 :: t).dropWhile (isKeyRec m) = t.dropWhile (isKeyRec m) := by
        simp [List.dropWhile_cons, hk]
      rw [heq]
      exact ih ht (fun r hr => hall r (List.mem_cons_of_mem h0 hr))
    | false =>
      have heq : (h0 :: t).dropWhile (isKeyRec m) = h0 :: t := by
        simp [List.dropWhile_cons, hk]
      rw [heq]
      intro r hr
      have hne : canonicalKey h0 ≠ m := by
        intro h'
        simp [isKeyRec, h'] at hk
      have hlt0 : keyLt ranks m (canonicalKey h0) := by
        rcases hall h0 (List.mem_cons_self h0 t) with hlt | heq'
        · exact hlt
        · exact absurd heq'.symm hne
      rcases List.mem_cons.mp hr with rfl | hr'
      · exact hlt0
      · exact keyLt_of_keyLt_of_keyLe hlt0 (hh r hr')

theorem mergeGroupsFuel_key_mem (ranks : List String) :
    ∀ (fuel : Nat) (streams : List (List VariantRecord)) (g : ConsensusGroup),
      g ∈ mergeGroupsFuel ranks fuel streams →
      ∃ s ∈ streams, ∃ r ∈ s, canonicalKey r = g.key := by
  intro fuel
  induction fuel with
  | zero =>
    intro streams g hg
    simp [mergeGroupsFuel] at hg
  | succ n ih =>
    intro streams g hg
    cases hmin : minKey ranks (headKeys streams) with
    | none =>
      simp [mergeGroupsFuel, hmin] at hg
    | some m =>
      simp only [mergeGroupsFuel, hmin] at hg
      rcases List.mem_cons.mp hg with rfl | hg'
      · obtain ⟨s, hs, h0, t, hst, hkey⟩ := mem_headKeys (minKey_mem hmin)
        exact ⟨s, hs, h0, by rw [hst]; exact List.mem_cons_self h0 t, hkey⟩
      · obtain ⟨s', hs', r, hr, hkey⟩ := ih _ g hg'
        rw [List.mem_map] at hs'
        obtain ⟨s, hs, rfl⟩ := hs'
        exact ⟨s, hs, r, (List.dropWhile_sublist _).mem hr, hkey⟩

theorem totalLen_dropWhile_le (p : VariantRecord → Bool) :
    ∀ streams : List (List VariantRecord),
      totalLen (streams.map (fun s => s.dropWhile p)) ≤ totalLen streams := by
  intro streams
  induction streams with
  | nil => simp [totalLen]
  | cons s ss ih =>
    simp only [totalLen, List.map_cons, List.sum_cons] at ih ⊢
    exact Nat.add_le_add (List.dropWhile_sublist p).length_le ih

theorem totalLen_dropWhile_lt (p : VariantRecord → Bool) :
    ∀ streams : List (List VariantRecord),
      (∃ s ∈ streams, ∃ h0 t, s = h0 :: t ∧ p h0 = true) →
      totalLen (streams.map (fun s => s.dropWhile p)) < totalLen streams := by
  intro streams
  induction streams with
  | nil =>
    rintro ⟨s, hs, -⟩
    simp at hs
  | cons s ss ih =>
    rintro ⟨s', hs', h0, t, hst, hp⟩
    rcases List.mem_cons.mp hs' with rfl | hmem
    · simp only [totalLen, List.map_cons, List.sum_cons]
      have hhead : (s'.dropWhile p).length < s'.length := by
        rw [hst]
        have hdw : ((h0 :: t).dropWhile p) = t.dropWhile p := by
          simp [List.dropWhile_cons, hp]
        rw [hdw]
        have hle := (List.dropWhile_sublist (l := t) p).length_le
        simp only [List.length_cons]
        omega
      exact Nat.add_lt_add_of_lt_of_le hhead (totalLen_dropWhile_le p ss)
    · simp only [totalLen, List.map_cons, List.sum_cons]
      exact Nat.add_lt_add_of_le_of_lt (List.dropWhile_sublist p).length_le
        (ih ⟨s', hmem, h0, t, hst, hp⟩)

theorem totalLen_zero_headKeys {streams : List (List VariantRecord)}
    (h : totalLen streams = 0) : headKeys streams = [] := by
  induction streams with
  | nil => rfl
  | cons s ss ih =>
    simp only [totalLen, List.map_cons, List.sum_cons] at h
    have hs : s.length = 0 := by omega
    have hss : totalLen ss = 0 := by
      simp only [totalLen]
      omega
    rw [List.length_eq_zero] at hs
    subst hs
    have heq : headKeys (([] : List VariantRecord) :: ss) = headKeys ss := rfl
    rw [heq]
    exact ih hss

theorem mergeGroupsFuel_succ (ranks : List String) :
    ∀ (fuel : Nat) (streams : List (List VariantRecord)),
      totalLen streams ≤ fuel →
      mergeGroupsFuel ranks (fuel + 1) streams = mergeGroupsFuel ranks fuel streams := by
  intro fuel
  induction fuel with
  | zero =>
    intro streams h
    have h0 : totalLen streams = 0 := Nat.le_zero.mp h
    show mergeGroupsFuel ranks 1 streams = []
    simp only [mergeGroupsFuel]
    rw [totalLen_zero_headKeys h0]
    rfl
  | succ n ih =>
    intro streams h
    cases hmin : minKey ranks (headKeys streams) with
    | none =>
      simp only [mergeGroupsFuel, hmin]
    | some m =>
      simp only [mergeGroupsFuel, hmin]
      congr 1
      apply ih
      have hlt : totalLen (streams.map (fun s => s.dropWhile (isKeyRec m))) < totalLen streams := by
        apply totalLen_dropWhile_lt
        obtain ⟨s, hs, h0, t, hst, hkey⟩ := mem_headKeys (minKey_mem hmin)
        exact ⟨s, hs, h0, t, hst, by simp [isKeyRec, hkey]⟩
      omega

theorem mergeGroupsFuel_stable (ranks : List String)
    (streams : List (List VariantRecord)) :
    ∀ k : Nat,
      mergeGroupsFuel ranks (totalLen streams + k) streams = mergeGroups ranks streams := by
  intro k
  induction k with
  | zero => rfl
  | succ n ih =>
    rw [← ih]
    exact mergeGroupsFuel_succ ranks (totalLen streams + n) streams (Nat.le_add_right _ _)

theorem mergeGroupsFuel_pairwise (ranks : List String) :
    ∀ (fuel : Nat) (streams : List (List VariantRecord)),
      (∀ s ∈ streams, s.Pairwise (fun u v => keyLe ranks (canonicalKey u) (canonicalKey v))) →
      (∀ s ∈ streams, ∀ r ∈ s, r.contig ∈ ranks) →
      (mergeGroupsFuel ranks fuel streams).Pairwise (fun u v => keyLt ranks u.key v.key) := by
  intro fuel
  induction fuel with
  | zero =>
    intro streams _ _
    simp [mergeGroupsFuel]
  | succ n ih =>
    intro streams hsort hcontig
    cases hmin : minKey ranks (headKeys streams) with
    | none => simp [mergeGroupsFuel, hmin]
    | some m =>
      simp only [mergeGroupsFuel, hmin]
      rw [List.pairwise_cons]
      constructor
      · intro g hg
        obtain ⟨s', hs', r, hr, hkey⟩ := mergeGroupsFuel_key_mem ranks n _ g hg
        rw [List.mem_map] at hs'
        obtain ⟨s, hs, rfl⟩ := hs'
        have hsorted_s := hsort s hs
        have hall : ∀ x ∈ s, keyLe ranks m (canonicalKey x) := by
          apply all_keyLe_of_sorted hsorted_s
          intro h0 t hst
          apply minKey_le hmin (headKeys_contig hcontig)
          exact head_mem_headKeys hs hst
        have hgt := dropWhile_keyGt m s hsorted_s hall r hr
        rw [hkey] at hgt
        exact hgt
      · apply ih
        · intro s' hs'
          rw [List.mem_map] at hs'
          obtain ⟨s, hs, rfl⟩ := hs'
          exact (hsort s hs).sublist (List.dropWhile_sublist _)
        · intro s' hs' r hr
          rw [List.mem_map] at hs'
          obtain ⟨s, hs, rfl⟩ := hs'
          exact hcontig s hs r ((List.dropWhile_sublist _).mem hr)

theorem streamSorted_pairwise (ranks : List String) :
    ∀ s : List VariantRecord, streamSorted ranks s = true →
      s.Pairwise (fun u v => keyLe ranks (canonicalKey u) (canonicalKey v)) := by
  intro s
  induction s with
  | nil =>
    intro _
    exact List.Pairwise.nil
  | cons a t ih =>
    intro h
    cases t with
    | nil => simp
    | cons b rest =>
      rw [streamSorted, Bool.and_eq_true] at h
      obtain ⟨hab, hrest⟩ := h
      have hab' : keyLe ranks (canonicalKey a) (canonicalKey b) := of_decide_eq_true hab
      have hp := ih hrest
      rw [List.pairwise_cons]
      refine ⟨?_, hp⟩
      intro x hx
      rcases List.mem_cons.mp hx with rfl | hx'
      · exact hab'
      · exact keyLe_trans hab' ((List.pairwise_cons.mp hp).1 x hx')

/-! ## Lemmas about flag sets and criterion evaluation -/

theorem mem_addFlag {flags : List String} {f x : String} :
    x ∈ addFlag flags f ↔ x ∈ flags ∨ x = f := by
  rw [addFlag]
  by_cases h : f ∈ flags
  · rw [if_pos h]
    constructor
    · exact Or.inl
    · rintro (hx | rfl)
      · exact hx
      · exact h
  · rw [if_neg h]
    simp [List.mem_append]

theorem addFlag_nodup {flags : List String} {f : String} (h : flags.Nodup) :
    (addFlag flags f).Nodup := by
  rw [addFlag]
  by_cases hf : f ∈ flags
  · rw [if_pos hf]
    exact h
  · rw [if_neg hf]
    simp [List.nodup_append, h, hf]

theorem satisfied_applyCriteria (c : Criterion) (cs : List Criterion) (r : VariantRecord) :
    c.satisfied (applyCriteria cs r) = c.satisfied r := rfl

theorem info_applyCriteria (cs : List Criterion) (r : VariantRecord) :
    (applyCriteria cs r).info = r.info := rfl

theorem foldl_flagStep_mono (r : VariantRecord) :
    ∀ (cs : List Criterion) (fs : List String) (x : String),
      x ∈ fs → x ∈ cs.foldl (flagStep r) fs := by
  intro cs
  induction cs with
  | nil =>
    intro fs x hx
    exact hx
  | cons c rest ih =>
    intro fs x hx
    rw [List.foldl_cons]
    apply ih
    rw [flagStep]
    by_cases hc : c.satisfied r = true
    · rw [if_pos hc]
      exact mem_addFlag.mpr (Or.inl hx)
    · rw [if_neg hc]
      exact hx

theorem foldl_flagStep_mem (r : VariantRecord) :
    ∀ (cs : List Criterion) (fs : List String) (c : Criterion),
      c ∈ cs → c.satisfied r = true → c.name ∈ cs.foldl (flagStep r) fs := by
  intro cs
  induction cs with
  | nil =>
    intro fs c hc
    simp at hc
  | cons c0 rest ih =>
    intro fs c hc hsat
    rw [List.foldl_cons]
    rcases List.mem_cons.mp hc with rfl | hc'
    · apply foldl_flagStep_mono
      rw [flagStep, if_pos hsat]
      exact mem_addFlag.mpr (Or.inr rfl)
    · exact ih _ c hc' hsat

theorem foldl_flagStep_fixed (r : VariantRecord) :
    ∀ (cs : List Criterion) (fs : List String),
      (∀ c ∈ cs, c.satisfied r = true → c.name ∈ fs) →
      cs.foldl (flagStep r) fs = fs := by
  intro cs
  induction cs with
  | nil =>
    intro fs _
    rfl
  | cons c0 rest ih =>
    intro fs h
    rw [List.foldl_cons]
    have hstep : flagStep r fs c0 = fs := by
      rw [flagStep]
      by_cases hc : c0.satisfied r = true
      · rw [if_pos hc, addFlag, if_pos (h c0 (List.mem_cons_self c0 rest) hc)]
      · rw [if_neg hc]
    rw [hstep]
    exact ih fs (fun c hc hs => h c (List.mem_cons_of_mem c0 hc) hs)

theorem foldl_flagStep_nodup (r : VariantRecord) :
    ∀ (cs : List Criterion) (fs : List String), fs.Nodup →
      (cs.foldl (flagStep r) fs).Nodup := by
  intro cs
  induction cs with
  | nil =>
    intro fs h
    exact h
  | cons c0 rest ih =>
    intro fs h
    rw [List.foldl_cons]
    apply ih
    rw [flagStep]
    by_cases hc : c0.satisfied r = true
    · rw [if_pos hc]
      exact addFlag_nodup h
    · rw [if_neg hc]
      exact h

/-! ## Lemmas about indel normalization -/

theorem commonPrefixLen_nil_left : ∀ b : List Char, commonPrefixLen [] b = 0 := by
  intro b
  cases b <;> rfl

theorem commonPrefixLen_nil_right : ∀ a : List Char, commonPrefixLen a [] = 0 := by
  intro a
  cases a <;> rfl

theorem commonPrefixLen_drop : ∀ a b : List Char,
    commonPrefixLen (a.drop (commonPrefixLen a b)) (b.drop (commonPrefixLen a b)) = 0 := by
  intro a
  induction a with
  | nil =>
    intro b
    rw [commonPrefixLen_nil_left]
    exact commonPrefixLen_nil_left _
  | cons x xs ih =>
    intro b
    cases b with
    | nil =>
      rw [commonPrefixLen_nil_right]
      exact commonPrefixLen_nil_right _
    | cons y ys =>
      by_cases hxy : x = y
      · subst hxy
        rw [commonPrefixLen, if_pos rfl]
        simpa [List.drop_succ_cons] using ih ys
      · rw [commonPrefixLen, if_neg hxy]
        show commonPrefixLen (x :: xs) (y :: ys) = 0
        rw [commonPrefixLen, if_neg hxy]

theorem commonPrefixLen_zero_take : ∀ a b : List Char, commonPrefixLen a b = 0 →
    ∀ i j, commonPrefixLen (a.take i) (b.take j) = 0 := by
  intro a b h i j
  cases a with
  | nil =>
    rw [List.take_nil]
    exact commonPrefixLen_nil_left _
  | cons x xs =>
    cases b with
    | nil =>
      rw [List.take_nil]
      exact commonPrefixLen_nil_right _
    | cons y ys =>
      have hxy : x ≠ y := by
        intro h'
        rw [commonPrefixLen, if_pos h'] at h
        omega
      cases i with
      | zero => exact commonPrefixLen_nil_left _
      | succ i' =>
        cases j with
        | zero => exact commonPrefixLen_nil_right _
        | succ j' =>
          rw [List.take_succ_cons, List.take_succ_cons, commonPrefixLen, if_neg hxy]

theorem commonPrefixLen_le_left : ∀ a b : List Char, commonPrefixLen a b ≤ a.length := by
  intro a
  induction a with
  | nil =>
    intro b
    rw [commonPrefixLen_nil_left]
    exact Nat.le_refl 0
  | cons x xs ih =>
    intro b
    cases b with
    | nil =>
      rw [commonPrefixLen_nil_right]
      exact Nat.zero_le _
    | cons y ys =>
      rw [commonPrefixLen]
      by_cases hxy : x = y
      · rw [if_pos hxy, List.length_cons]
        exact Nat.succ_le_succ (ih ys)
      · rw [if_neg hxy]
        exact Nat.zero_le _

theorem commonPrefixLen_le_right : ∀ a b : List Char, commonPrefixLen a b ≤ b.length := by
  intro a
  induction a with
  | nil =>
    intro b
    rw [commonPrefixLen_nil_left]
    exact Nat.zero_le _
  | cons x xs ih =>
    intro b
    cases b with
    | nil =>
      rw [commonPrefixLen_nil_right]
      exact Nat.le_refl 0
    | cons y ys =>
      rw [commonPrefixLen]
      by_cases hxy : x = y
      · rw [if_pos hxy, List.length_cons]
        exact Nat.succ_le_succ (ih ys)
      · rw [if_neg hxy]
        exact Nat.zero_le _

theorem stripShared_of_stripped {ref alt : List Char}
    (hpre : commonPrefixLen ref alt = 0)
    (hsuf : commonPrefixLen ref.reverse alt.reverse = 0) :
    stripShared ref alt = (0, ref, alt) := by
  simp only [stripShared, hsuf, Nat.sub_zero, List.take_length, hpre, List.drop_zero]

theorem stripShared_stripped (ref alt : List Char) :
    commonPrefixLen (stripShared ref alt).2.1 (stripShared ref alt).2.2 = 0 ∧
    commonPrefixLen (stripShared ref alt).2.1.reverse (stripShared ref alt).2.2.reverse = 0 := by
  have key : ∀ (k p : Nat) (r1 a1 : List Char),
      k = commonPrefixLen ref.reverse alt.reverse →
      r1 = ref.take (ref.length - k) → a1 = alt.take (alt.length - k) →
      p = commonPrefixLen r1 a1 →
      commonPrefixLen (r1.drop p) (a1.drop p) = 0 ∧
        commonPrefixLen (r1.drop p).reverse (a1.drop p).reverse = 0 := by
    intro k p r1 a1 hk hr1 ha1 hp
    subst hp
    constructor
    · exact commonPrefixLen_drop r1 a1
    · rw [List.reverse_drop, List.reverse_drop]
      apply commonPrefixLen_zero_take
      subst hr1 ha1
      have hkr : k ≤ ref.length := by
        rw [hk]
        have h1 := commonPrefixLen_le_left ref.reverse alt.reverse
        simpa using h1
      have hka : k ≤ alt.length := by
        rw [hk]
        have h1 := commonPrefixLen_le_right ref.reverse alt.reverse
        simpa using h1
      rw [List.reverse_take, List.reverse_take]
      have e1 : ref.length - (ref.length - k) = k := by omega
      have e2 : alt.length - (alt.length - k) = k := by omega
      rw [e1, e2, hk]
      exact commonPrefixLen_drop _ _
  exact key _ _ _ _ rfl rfl rfl rfl

theorem canonicalKey_of_stripped (r : VariantRecord)
    (hpre : commonPrefixLen r.ref.data r.alt.data = 0)
    (hsuf : commonPrefixLen r.ref.data.reverse r.alt.data.reverse = 0) :
    canonicalKey r = ⟨r.contig, r.pos, r.ref, r.alt⟩ := by
  simp only [canonicalKey, stripShared_of_stripped hpre hsuf]
  rfl

/-! ## Lemmas about merged-record construction -/

theorem argminRank_cons (r : VariantRecord) (rest : List VariantRecord) :
    ∃ b, argminRank (r :: rest) = some b := by
  cases hrest : argminRank rest with
  | none => exact ⟨r, by simp only [argminRank, hrest]⟩
  | some b =>
    by_cases h : r.source.rank ≤ b.source.rank
    · exact ⟨r, by simp only [argminRank, hrest, if_pos h]⟩
    · exact ⟨b, by simp only [argminRank, hrest, if_neg h]⟩

theorem argminRank_spec : ∀ (l : List VariantRecord) (b : VariantRecord),
    argminRank l = some b → b ∈ l ∧ ∀ x ∈ l, b.source.rank ≤ x.source.rank := by
  intro l
  induction l with
  | nil =>
    intro b h
    simp [argminRank] at h
  | cons r rest ih =>
    intro b h
    cases hrest : argminRank rest with
    | none =>
      simp only [argminRank, hrest] at h
      injection h with h'
      have hnil : rest = [] := by
        cases rest with
        | nil => rfl
        | cons x xs =>
          obtain ⟨c, hc⟩ := argminRank_cons x xs
          rw [hc] at hrest
          exact absurd hrest (by simp)
      subst hnil
      subst h'
      refine ⟨List.mem_cons_self r [], ?_⟩
      intro x hx
      rcases List.mem_cons.mp hx with rfl | hx'
      · exact Nat.le_refl _
      · simp at hx'
    | some c =>
      obtain ⟨hc_mem, hc_min⟩ := ih c hrest
      by_cases hle : r.source.rank ≤ c.source.rank
      · simp only [argminRank, hrest, if_pos hle] at h
        injection h with h'
        subst h'
        refine ⟨List.mem_cons_self r rest, ?_⟩
        intro x hx
        rcases List.mem_cons.mp hx with rfl | hx'
        · exact Nat.le_refl _
        · exact Nat.le_trans hle (hc_min x hx')
      · simp only [argminRank, hrest, if_neg hle] at h
        injection h with h'
        subst h'
        refine ⟨List.mem_cons_of_mem r hc_mem, ?_⟩
        intro x hx
        rcases List.mem_cons.mp hx with rfl | hx'
        · omega
        · exact hc_min x hx'

theorem mergedValue_highest_priority (g : ConsensusGroup) (f : String) (r : VariantRecord)
    (v : InfoValue) (hr : r ∈ g.records) (hv : lookupField r.info f = some v)
    (hmin : ∀ r' ∈ g.records, r' ≠ r → (lookupField r'.info f).isSome = true →
      r.source.rank < r'.source.rank) :
    mergedValue g f = some v := by
  have hrc : r ∈ carriers g f := by
    rw [carriers, List.mem_filter]
    refine ⟨hr, ?_⟩
    rw [hv]
    rfl
  obtain ⟨b, hb⟩ : ∃ b, argminRank (carriers g f) = some b := by
    cases hc : carriers g f with
    | nil =>
      rw [hc] at hrc
      simp at hrc
    | cons x xs =>
      exact argminRank_cons x xs
  obtain ⟨hb_mem, hb_min⟩ := argminRank_spec _ b hb
  have hb_carries : (lookupField b.info f).isSome = true := by
    rw [carriers, List.mem_filter] at hb_mem
    exact hb_mem.2
  have hb_rec : b ∈ g.records := by
    rw [carriers, List.mem_filter] at hb_mem
    exact hb_mem.1
  have hbr : b = r := by
    by_contra hne
    have h1 := hmin b hb_rec hne hb_carries
    have h2 := hb_min r hrc
    omega
  rw [mergedValue, hb, hbr]
  simp [hv]

theorem lookupField_mem_keys : ∀ (l : List (String × InfoValue)) (f : String) (v : InfoValue),
    lookupField l f = some v → f ∈ l.map Prod.fst := by
  intro l
  induction l with
  | nil =>
    intro f v h
    simp [lookupField] at h
  | cons kv rest ih =>
    intro f v h
    obtain ⟨k, w⟩ := kv
    rw [lookupField] at h
    by_cases hk : k = f
    · subst hk
      simp [List.map_cons]
    · rw [if_neg hk] at h
      simp only [List.map_cons, List.mem_cons]
      exact Or.inr (ih f v h)

theorem mem_fieldNames {g : ConsensusGroup} {r : VariantRecord} {f : String} {v : InfoValue}
    (hr : r ∈ g.records) (hv : lookupField r.info f = some v) : f ∈ fieldNames g := by
  rw [fieldNames, List.mem_dedup, List.mem_flatten]
  exact ⟨r.info.map Prod.fst, List.mem_map.mpr ⟨r, hr, rfl⟩, lookupField_mem_keys _ f v hv⟩

theorem lookupField_filterMap (g : ConsensusGroup) :
    ∀ (names : List String) (f : String) (v : InfoValue), f ∈ names →
      mergedValue g f = some v →
      lookupField (names.filterMap (fun n => (mergedValue g n).map (fun w => (n, w)))) f
        = some v := by
  intro names
  induction names with
  | nil =>
    intro f v hf
    simp at hf
  | cons n rest ih =>
    intro f v hf hv
    cases hn : mergedValue g n with
    | none =>
      have hne : f ≠ n := by
        intro h'
        rw [h', hn] at hv
        exact absurd hv (by simp)
      have hf' : f ∈ rest := by
        rcases List.mem_cons.mp hf with rfl | h'
        · exact absurd rfl hne
        · exact h'
      simp only [List.filterMap_cons, hn, Option.map_none']
      exact ih f v hf' hv
    | some w =>
      simp only [List.filterMap_cons, hn, Option.map_some']
      by_cases hnf : n = f
      · subst hnf
        rw [hn] at hv
        injection hv with hv'
        subst hv'
        rw [lookupField, if_pos rfl]
      · have hf' : f ∈ rest := by
          rcases List.mem_cons.mp hf with rfl | h'
          · exact absurd rfl (fun h => hnf h.symm)
          · exact h'
        rw [lookupField, if_neg hnf]
        exact ih f v hf' hv

theorem mem_mergedFlags (g : ConsensusGroup) (fl : String) :
    fl ∈ mergedFlags g ↔ ∃ r ∈ g.records, fl ∈ r.filterFlags := by
  rw [mergedFlags, List.mem_dedup, List.mem_flatten]
  constructor
  · rintro ⟨l, hl, hfl⟩
    rw [List.mem_map] at hl
    obtain ⟨r, hr, rfl⟩ := hl
    exact ⟨r, hr, hfl⟩
  · rintro ⟨r, hr, hfl⟩
    exact ⟨r.filterFlags, List.mem_map.mpr ⟨r, hr, rfl⟩, hfl⟩

theorem keepGroup_eq_true_iff (minSnvCallers minIndelCallers : Int) (g : ConsensusGroup) :
    keepGroup minSnvCallers minIndelCallers g = true ↔
      (if VariantClass.ofKey g.key = .snv then minSnvCallers ≤ (supportCount g : Int)
       else minIndelCallers ≤ (supportCount g : Int)) := by
  cases hclass : VariantClass.ofKey g.key with
  | snv => simp [keepGroup, hclass]
  | indel => simp [keepGroup, hclass]

theorem picking_ok_inv {ranks : List String} {streams : List (List VariantRecord)}
    {minSnvCallers minIndelCallers : Int} {out : List ConsensusVariant}
    (h : picking ranks streams minSnvCallers minIndelCallers = .ok out) :
    contigsKnown ranks streams = true ∧ streams.all (streamSorted ranks) = true ∧
      out = (keptGroups ranks streams minSnvCallers minIndelCallers).map mergeGroup := by
  rw [picking] at h
  split at h
  · exact absurd h (by simp)
  split at h
  · exact absurd h (by simp)
  split at h
  · exact absurd h (by simp)
  split at h
  · exact absurd h (by simp)
  rename_i h1 h2 h3 h4
  injection h with h'
  refine ⟨?_, ?_, h'.symm⟩
  · simpa using h2
  · simpa using h4

/-! ## Claim theorems -/

/-- C1: a consensus group formed by the k-way merge is kept iff its number of
distinct supporting caller sources reaches `min_snv_callers` for an SNV and
`min_indel_callers` otherwise; at the boundary (spec §8), `chr1:100 A>G`
reported by mutect2 and vardict with `min_snv_callers = 2` is kept, while the
same variant reported by mutect2 alone is dropped. -/
theorem C1_consensus_threshold :
    (∀ (ranks : List String) (streams : List (List VariantRecord))
        (minSnvCallers minIndelCallers : Int) (g : ConsensusGroup),
        g ∈ mergeGroups ranks streams →
        (g ∈ keptGroups ranks streams minSnvCallers minIndelCallers ↔
          (if VariantClass.ofKey g.key = .snv then minSnvCallers ≤ (supportCount g : Int)
           else minIndelCallers ≤ (supportCount g : Int))))
    ∧ picking ["chr1"] [[recMutect2AG], [recVardictAG]] 2 2 = .ok [consensusAG]
    ∧ picking ["chr1"] [[recMutect2AG]] 2 2 = .ok [] := by
  refine ⟨?_, by decide, by decide⟩
  intro ranks streams minSnvCallers minIndelCallers g hg
  rw [keptGroups, List.mem_filter]
  constructor
  · rintro ⟨-, hkeep⟩
    exact (keepGroup_eq_true_iff minSnvCallers minIndelCallers g).mp hkeep
  · intro hcond
    exact ⟨hg, (keepGroup_eq_true_iff minSnvCallers minIndelCallers g).mpr hcond⟩

/-- Witness for C1 at the spec's boundary example, applying the theorem at
the concrete two-caller group. -/
theorem C1_consensus_threshold_witness :
    groupAG ∈ keptGroups ["chr1"] [[recMutect2AG], [recVardictAG]] 2 2 :=
  (C1_consensus_threshold.1 ["chr1"] [[recMutect2AG], [recVardictAG]] 2 2 groupAG
    (by decide)).mpr
    (by rw [if_pos (show VariantClass.ofKey groupAG.key = .snv by decide)]; decide)

/-- C2: whenever the picking pipeline emits output (`picking … = .ok out`),
the emitted consensus records are strictly increasing under the genomic
total order (contig rank, position, reference allele, alternate allele); in
particular no two emitted records share a key and no record precedes an
earlier one. -/
theorem C2_output_strictly_increasing (ranks : List String)
    (streams : List (List VariantRecord)) (minSnvCallers minIndelCallers : Int)
    (out : List ConsensusVariant)
    (h : picking ranks streams minSnvCallers minIndelCallers = .ok out) :
    out.Pairwise (fun u v => keyLt ranks u.key v.key) ∧
      out.Pairwise (fun u v => u.key ≠ v.key) := by
  obtain ⟨hcontig, hsorted, hout⟩ := picking_ok_inv h
  have hcontig' : ∀ s ∈ streams, ∀ r ∈ s, r.contig ∈ ranks := by
    rw [contigsKnown, List.all_eq_true] at hcontig
    intro s hs r hr
    have hall := hcontig s hs
    rw [List.all_eq_true] at hall
    exact of_decide_eq_true (hall r hr)
  have hsort' : ∀ s ∈ streams,
      s.Pairwise (fun u v => keyLe ranks (canonicalKey u) (canonicalKey v)) := by
    rw [List.all_eq_true] at hsorted
    exact fun s hs => streamSorted_pairwise ranks s (hsorted s hs)
  have hpair : (mergeGroups ranks streams).Pairwise (fun u v => keyLt ranks u.key v.key) :=
    mergeGroupsFuel_pairwise ranks _ streams hsort' hcontig'
  have hkept : (keptGroups ranks streams minSnvCallers minIndelCallers).Pairwise
      (fun u v => keyLt ranks u.key v.key) := hpair.filter _
  have hmap : out.Pairwise (fun u v => keyLt ranks u.key v.key) := by
    rw [hout, List.pairwise_map]
    exact hkept
  refine ⟨hmap, List.Pairwise.imp ?_ hmap⟩
  intro a b hab hEq
  rw [hEq] at hab
  exact keyLt_irrefl ranks b.key hab

/-- Witness for C2 on a two-record sorted stream, applying the theorem at
the concrete pipeline run. -/
theorem C2_output_strictly_increasing_witness :
    ([consensusAG, consensusAt200] : List ConsensusVariant).Pairwise
        (fun u v => keyLt ["chr1"] u.key v.key) ∧
      ([consensusAG, consensusAt200] : List ConsensusVariant).Pairwise
        (fun u v => u.key ≠ v.key) :=
  C2_output_strictly_increasing ["chr1"] [[recMutect2AG, recMutect2At200]] 1 1
    [consensusAG, consensusAt200] (by decide)

/-- C3: indel normalization is idempotent — a record whose non-empty alleles
are already in stripped form (no shared leading or trailing bases)
normalizes to itself as a canonical key, and re-normalizing the record built
from any normalization result with non-empty alleles returns the same key,
so normalizing twice equals normalizing once. -/
theorem C3_normalize_idempotent :
    (∀ r : VariantRecord, r.ref ≠ "" → r.alt ≠ "" →
      commonPrefixLen r.ref.data r.alt.data = 0 →
      commonPrefixLen r.ref.data.reverse r.alt.data.reverse = 0 →
      normalize r = .ok ⟨r.contig, r.pos, r.ref, r.alt⟩)
    ∧ (∀ (r : VariantRecord) (k : CanonicalKey), normalize r = .ok k →
      k.ref ≠ "" → k.alt ≠ "" → normalize k.toRecord = .ok k) := by
  constructor
  · intro r href halt hpre hsuf
    rw [normalize, if_neg (by push_neg; exact ⟨href, halt⟩)]
    rw [canonicalKey_of_stripped r hpre hsuf]
  · intro r k hnorm href halt
    have hk : k = canonicalKey r := by
      rw [normalize] at hnorm
      by_cases hcond : r.ref = "" ∨ r.alt = ""
      · rw [if_pos hcond] at hnorm
        exact absurd hnorm (by simp)
      · rw [if_neg hcond] at hnorm
        injection hnorm with h'
        exact h'.symm
    subst hk
    obtain ⟨hpre, hsuf⟩ := stripShared_stripped r.ref.data r.alt.data
    rw [normalize, if_neg (by push_neg; exact ⟨href, halt⟩)]
    have hfix := canonicalKey_of_stripped (canonicalKey r).toRecord hpre hsuf
    rw [hfix]
    exact rfl

/-- Witness for C3 at the already-normalized record `chr1:100 A>G`. -/
theorem C3_normalize_idempotent_witness :
    normalize recMutect2AG = .ok ⟨"chr1", 100, "A", "G"⟩ ∧
      normalize (CanonicalKey.mk "chr1" 100 "A" "G").toRecord
        = .ok ⟨"chr1", 100, "A", "G"⟩ :=
  ⟨C3_normalize_idempotent.1 recMutect2AG (by decide) (by decide) (by decide) (by decide),
   C3_normalize_idempotent.2 recMutect2AG ⟨"chr1", 100, "A", "G"⟩
     (by decide) (by decide) (by decide)⟩

/-- C4: when records in one consensus group disagree on an INFO field, the
merged record takes that field's value from the supporting source of
minimal rank (highest priority); rank equals the CLI declaration order of
`src/__main__.py` (mutect2, haplotype-caller, muse, varscan, lofreq,
vardict, somatic-sniper); and the merged filter-flag set is the union of all
supporting records' flags regardless of priority. -/
theorem C4_conflict_resolution :
    (∀ s : CallerSource, pickingOptionalArgs[s.rank]? = some (callerArgDef s))
    ∧ (∀ (g : ConsensusGroup) (f : String) (r : VariantRecord) (v : InfoValue),
        r ∈ g.records → lookupField r.info f = some v →
        (∀ r' ∈ g.records, r' ≠ r → (lookupField r'.info f).isSome = true →
          r.source.rank < r'.source.rank) →
        mergedValue g f = some v ∧ lookupField (mergeGroup g).info f = some v)
    ∧ (∀ (g : ConsensusGroup) (fl : String),
        fl ∈ (mergeGroup g).filterFlags ↔ ∃ r ∈ g.records, fl ∈ r.filterFlags) := by
  refine ⟨by decide, ?_, ?_⟩
  · intro g f r v hr hv hmin
    have hmv := mergedValue_highest_priority g f r v hr hv hmin
    exact ⟨hmv, lookupField_filterMap g (fieldNames g) f v (mem_fieldNames hr hv) hmv⟩
  · intro g fl
    exact mem_mergedFlags g fl

/-- Witness for C4 at the two-caller group with conflicting depth values:
the merged depth is mutect2's. -/
theorem C4_conflict_resolution_witness :
    mergedValue groupAG "DP" = some (.num ⟨30, 1⟩) ∧
      lookupField (mergeGroup groupAG).info "DP" = some (.num ⟨30, 1⟩) :=
  C4_conflict_resolution.2.1 groupAG "DP" recMutect2AG (.num ⟨30, 1⟩)
    (by decide) (by decide) (by decide)

/-- C5: a record whose filter-flag set (pre-existing plus newly added) meets
the removal set is dropped, otherwise it is emitted with its flag set
serialized (sorted, semicolon-joined, or the no-flags marker when empty); in
particular a record flagged by a criterion whose name is in the removal set
is dropped, never emitted with that flag. -/
theorem C5_removal (cs : List Criterion) (removal : List String) (r : VariantRecord) :
    (evaluateRecord cs removal r = .dropped ↔
      ∃ f ∈ (applyCriteria cs r).filterFlags, f ∈ removal)
    ∧ (∀ c ∈ cs, c.satisfied r = true → c.name ∈ removal →
        evaluateRecord cs removal r = .dropped)
    ∧ (evaluateRecord cs removal r ≠ .dropped →
        evaluateRecord cs removal r
          = .emitted (serializeFlags (applyCriteria cs r).filterFlags)) := by
  have hchar : evaluateRecord cs removal r = .dropped ↔
      ∃ f ∈ (applyCriteria cs r).filterFlags, f ∈ removal := by
    simp only [evaluateRecord]
    by_cases hany :
        ((applyCriteria cs r).filterFlags.any (fun f => decide (f ∈ removal))) = true
    · rw [if_pos hany]
      constructor
      · intro _
        obtain ⟨f, hf, hdec⟩ := List.any_eq_true.mp hany
        exact ⟨f, hf, of_decide_eq_true hdec⟩
      · intro _
        rfl
    · rw [if_neg hany]
      constructor
      · intro h'
        exact absurd h' (by simp)
      · rintro ⟨f, hf, hmem⟩
        exact absurd (List.any_eq_true.mpr ⟨f, hf, decide_eq_true hmem⟩) hany
  refine ⟨hchar, ?_, ?_⟩
  · intro c hc hsat hname
    exact hchar.mpr ⟨c.name, foldl_flagStep_mem r cs r.filterFlags c hc hsat, hname⟩
  · intro hne
    simp only [evaluateRecord] at hne ⊢
    by_cases hany :
        ((applyCriteria cs r).filterFlags.any (fun f => decide (f ∈ removal))) = true
    · rw [if_pos hany] at hne
      exact absurd rfl hne
    · rw [if_neg hany]

/-- Witness for C5: a record flagged by `low_depth` while `low_depth` is a
removal flag is dropped. -/
theorem C5_removal_witness :
    evaluateRecord [lowDepthCriterion] ["low_depth"] recDP10 = .dropped :=
  (C5_removal [lowDepthCriterion] ["low_depth"] recDP10).2.1 lowDepthCriterion
    (by decide) (by decide) (by decide)

/-- C6: a criterion referencing a field absent from a record's INFO mapping
evaluates to false — the flag is not added, and evaluation is a total
function (no error is possible). -/
theorem C6_missing_field_false (c : Criterion) (r : VariantRecord)
    (h : lookupField r.info c.field = none) : c.satisfied r = false := by
  cases c with
  | cmp n f op v =>
    simp only [Criterion.satisfied]
    rw [show lookupField r.info f = none from h]
  | range n lo lop f hop hi =>
    simp only [Criterion.satisfied]
    rw [show lookupField r.info f = none from h]

/-- Witness for C6: a mapping-quality criterion on a record without `MQ`. -/
theorem C6_missing_field_false_witness :
    Criterion.satisfied (.cmp "mid_qual" "MQ" .le ⟨40, 1⟩) recDP10 = false :=
  C6_missing_field_false (.cmp "mid_qual" "MQ" .le ⟨40, 1⟩) recDP10 (by decide)

/-- C7: flagging is idempotent — applying the same criteria to an
already-flagged record returns the identical record (re-adding a present
flag is a no-op), and flagging preserves duplicate-freeness of the flag
set. -/
theorem C7_flagging_idempotent (cs : List Criterion) (r : VariantRecord) :
    applyCriteria cs (applyCriteria cs r) = applyCriteria cs r
    ∧ (r.filterFlags.Nodup → (applyCriteria cs r).filterFlags.Nodup) := by
  constructor
  · have hstep : flagStep (applyCriteria cs r) = flagStep r := rfl
    show ({ applyCriteria cs r with
        filterFlags := cs.foldl (flagStep (applyCriteria cs r))
          (applyCriteria cs r).filterFlags } : VariantRecord) = applyCriteria cs r
    rw [hstep, foldl_flagStep_fixed r cs (applyCriteria cs r).filterFlags
      (fun c hc hs => foldl_flagStep_mem r cs r.filterFlags c hc hs)]
  · intro hnodup
    exact foldl_flagStep_nodup r cs r.filterFlags hnodup

/-- Witness for C7 at the low-depth criterion, applying the theorem at the
concrete record. -/
theorem C7_flagging_idempotent_witness :
    applyCriteria [lowDepthCriterion] (applyCriteria [lowDepthCriterion] recDP10)
        = applyCriteria [lowDepthCriterion] recDP10
      ∧ (applyCriteria [lowDepthCriterion] recDP10).filterFlags.Nodup :=
  ⟨(C7_flagging_idempotent [lowDepthCriterion] recDP10).1,
   (C7_flagging_idempotent [lowDepthCriterion] recDP10).2 (by decide)⟩

/-- C8: the sentinel string `"None"` (case-sensitive) parses to an empty
criterion list and an empty removal-flag set rather than a parse error; the
CLI table of `src/__main__.py` supplies `"None"` as the default for both
strings; and under both sentinels every record is emitted (no drops) with
its filter-flag set unchanged. -/
theorem C8_none_sentinel :
    parseCriteria "None" = .ok []
    ∧ parseRemovalFlags "None" = []
    ∧ (⟨["--variant-flagging-criteria"], false, some (.str "None")⟩ : ArgDef)
        ∈ filteringOptionalArgs
    ∧ (⟨["--variant-removal-flags"], false, some (.str "None")⟩ : ArgDef)
        ∈ filteringOptionalArgs
    ∧ ∀ records : List VariantRecord,
        filteringRun "None" "None" records
          = .ok (records.map (fun r => .emitted (serializeFlags r.filterFlags))) := by
  refine ⟨rfl, rfl, by decide, by decide, ?_⟩
  intro records
  have hparse : parseCriteria "None" = Except.ok [] := rfl
  simp only [filteringRun, hparse]
  congr 1
  apply List.map_congr_left
  intro r _
  rw [show parseRemovalFlags "None" = [] from rfl]
  simp only [evaluateRecord]
  rw [show applyCriteria [] r = r from rfl]
  rw [if_neg (by simp)]

/-- C9: picking with a threshold below one fails with a fatal
`ConfigurationError`, before producing any output. -/
theorem C9_threshold_configuration_error (ranks : List String)
    (streams : List (List VariantRecord)) (minSnvCallers minIndelCallers : Int)
    (h : minSnvCallers < 1 ∨ minIndelCallers < 1) :
    picking ranks streams minSnvCallers minIndelCallers = .error .configurationError
    ∧ ∀ out, picking ranks streams minSnvCallers minIndelCallers ≠ .ok out := by
  have hp : picking ranks streams minSnvCallers minIndelCallers
      = .error .configurationError := by
    rw [picking, if_pos h]
  refine ⟨hp, ?_⟩
  intro out hok
  rw [hp] at hok
  exact absurd hok (by simp)

/-- Witness for C9 at `min_snv_callers = 0`. -/
theorem C9_threshold_configuration_error_witness :
    picking ["chr1"] [[recMutect2AG]] 0 1 = .error .configurationError :=
  (C9_threshold_configuration_error ["chr1"] [[recMutect2AG]] 0 1 (Or.inl (by decide))).1

/-- C10: with no subcommand selected (`args.mode = none`) the entry point
prints the root help text and calls neither the filtering nor the picking
engine. -/
theorem C10_no_mode_prints_help (args : ParsedArgs) (h : args.mode = none) :
    EntryPoint.run args = .printHelp
    ∧ (∀ i o c f w, EntryPoint.run args ≠ .runFiltering i o c f w)
    ∧ (∀ rf o m hc mu lo va vd ss ms mi w,
        EntryPoint.run args ≠ .runPicking rf o m hc mu lo va vd ss ms mi w) := by
  have hrun : EntryPoint.run args = .printHelp := by
    simp only [EntryPoint.run, h]
  refine ⟨hrun, ?_, ?_⟩
  · intro i o c f w
    rw [hrun]
    simp
  · intro rf o m hc mu lo va vd ss ms mi w
    rw [hrun]
    simp

/-- Witness for C10 at concrete parsed arguments with no mode. -/
theorem C10_no_mode_prints_help_witness :
    EntryPoint.run argsNoMode = .printHelp :=
  (C10_no_mode_prints_help argsNoMode rfl).1

end Variant
